import Mathlib

/-!
Verification development for the SMILES degradation-pathway renderer
(`streamlit_app.py`).  The Python/JS source is shallowly embedded:
strings are `List Char`, the chemistry engine is an opaque record of
parse/depict operations (`get_mol` may fail, modelled by `Option`;
`get_svg` is likewise allowed to fail, covering the `try` block's
per-item exception isolation), and each text-rewriting helper of the
asset-inlining layer is a pure function mirroring the Python code.
-/

set_option maxHeartbeats 1000000
set_option maxRecDepth 100000

/-! ## Basic character/string utilities -/

/-- JavaScript (and Python `re` `\s`) ASCII whitespace. -/
def isWs (c : Char) : Bool :=
  c = ' ' || c = '\t' || c = '\n' || c = '\r' || c = '\x0b' || c = '\x0c'

/-- `String.prototype.trim`: strip whitespace from both ends. -/
def jsTrim (s : List Char) : List Char :=
  ((s.dropWhile isWs).reverse.dropWhile isWs).reverse

/-- One step of splitting on a run of newlines: the segment before the
first `'\n'` together with the rest (still starting with `'\n'`, if any). -/
def splitRunsGo : Nat → List Char → List (List Char)
  | 0, s => [s]
  | fuel + 1, s =>
    let seg := s.takeWhile (fun c => !(c = '\n' : Bool))
    let rest := s.dropWhile (fun c => !(c = '\n' : Bool))
    match rest with
    | [] => [seg]
    | _ :: _ => seg :: splitRunsGo fuel (rest.dropWhile (fun c => (c = '\n' : Bool)))

/-- JS `rawInput.split(/\n+/)`: split at maximal runs of newlines
(leading/trailing runs produce empty segments, runs never produce
interior empties). -/
def splitRuns (s : List Char) : List (List Char) :=
  splitRunsGo s.length s

/-- JS `rawInput.split(/\n+/).map((item) => item.trim()).filter(Boolean)`:
the filtered input sequence of a render request. -/
def parseInput (raw : List Char) : List (List Char) :=
  ((splitRuns raw).map jsTrim).filter (fun s => !s.isEmpty)

/-! ## Render session (the in-sandbox `renderPathway` routine) -/

/-- The chemistry engine as consumed by the render session:
`get_mol` throws on invalid SMILES (`none`); `get_svg` is allowed to
throw as well (the `try` block catches any failure); molecule handles
are opaque (`Nat`). -/
structure Engine where
  getMol : List Char → Option Nat
  getSvg : Nat → Option (List Char)

/-- One element appended to the `#pathway` container. -/
inductive Item where
  | step (index : Nat) (smiles svg : List Char)
  | errorCard (smiles : List Char)
  | arrow
deriving DecidableEq

def isArrowItem : Item → Bool
  | .arrow => true
  | _ => false

def isStepItem : Item → Bool
  | .step _ _ _ => true
  | _ => false

def isErrorItem : Item → Bool
  | .errorCard _ => true
  | _ => false

/-- The non-connector items (depiction cards and failure markers). -/
def cardsOf (l : List Item) : List Item :=
  l.filter (fun it => !isArrowItem it)

/-- The SMILES string a card was built from. -/
def smilesOfCard : Item → List Char
  | .step _ s _ => s
  | .errorCard s => s
  | .arrow => []

/-- The body of the `forEach` in `renderPathway` for a single entry:
`get_mol`; on success `get_svg`, `delete`, append a step card and (when
not last) an arrow; on any failure append an error card.  Returns the
items appended and the handles released via `delete`. -/
def renderEntry (eng : Engine) (n idx : Nat) (s : List Char) :
    List Item × List Nat :=
  match eng.getMol s with
  | none => ([Item.errorCard s], [])
  | some m =>
    match eng.getSvg m with
    | none => ([Item.errorCard s], [])
    | some svg =>
      (Item.step idx s svg :: (if idx < n - 1 then [Item.arrow] else []), [m])

/-- The items appended by the whole `smilesList.forEach` loop
(`n` is `smilesList.length`, `idx` the current index). -/
def renderItems (eng : Engine) (n : Nat) : Nat → List (List Char) → List Item
  | _, [] => []
  | idx, s :: rest => (renderEntry eng n idx s).1 ++ renderItems eng n (idx + 1) rest

/-- The handles released via `delete` by the whole loop. -/
def renderDeletes (eng : Engine) (n : Nat) : Nat → List (List Char) → List Nat
  | _, [] => []
  | idx, s :: rest => (renderEntry eng n idx s).2 ++ renderDeletes eng n (idx + 1) rest

def emptyInputMsg : List Char :=
  "Please provide at least one SMILES string.".toList

def initFailMsg : List Char :=
  "Failed to initialize RDKit. Please refresh and try again.".toList

/-- Observable final state of one render pass: the `#feedback` text, the
`#pathway` container contents, the released molecule handles, and the
number of `get_mol` invocations (one per processed entry). -/
structure RenderResult where
  feedback : List Char
  container : List Item
  deleted : List Nat
  molCalls : Nat
deriving DecidableEq

/-- `renderPathway`: parse the text box into trimmed non-empty lines; if
none, clear the output and show a validation message without touching the
engine; otherwise await `rdkitReady` (`none` models a rejected promise,
caught by the outer `catch`) and render each entry in order. -/
def renderPathway (rdkitReady : Option Engine) (raw : List Char) : RenderResult :=
  let smilesList := parseInput raw
  if smilesList.isEmpty then
    ⟨emptyInputMsg, [], [], 0⟩
  else
    match rdkitReady with
    | none => ⟨initFailMsg, [], [], 0⟩
    | some eng =>
      ⟨[], renderItems eng smilesList.length 0 smilesList,
        renderDeletes eng smilesList.length 0 smilesList, smilesList.length⟩

/-- An entry the engine handles fully: `get_mol` succeeds and `get_svg`
on the resulting handle succeeds (per the engine contract `get_svg`
does not throw on a valid handle). -/
def ValidEntry (eng : Engine) (s : List Char) : Prop :=
  ∃ m svg, eng.getMol s = some m ∧ eng.getSvg m = some svg

/-- Counts how many of the indices `idx, idx+1, …, idx+len-1` satisfy
`· < n - 1` — the arrow count contributed by `len` consecutive
successfully rendered entries starting at `idx`. -/
def countLt (n : Nat) : Nat → Nat → Nat
  | _, 0 => 0
  | idx, len + 1 => (if idx < n - 1 then 1 else 0) + countLt n (idx + 1) len

/-! ## Python string replacement (`str.replace`) -/

/-- `p` is a prefix of `s` (executable). -/
def prefB : List Char → List Char → Bool
  | [], _ => true
  | _ :: _, [] => false
  | c :: p, d :: s => decide (c = d) && prefB p s

/-- `p` is a suffix of `s` (executable). -/
def suffB (p s : List Char) : Bool := prefB p.reverse s.reverse

/-- Worker for `str.replace` (replace-all): scan left to right, splice
`r` at each leftmost non-overlapping occurrence of `p`.  `fuel` bounds
the recursion; `fuel = s.length` suffices because at least one input
character is consumed per step. -/
def replaceAllGo (p r : List Char) : Nat → List Char → List Char
  | 0, s => s
  | fuel + 1, s =>
    match s with
    | [] => []
    | c :: t =>
      if prefB p (c :: t) then r ++ replaceAllGo p r fuel ((c :: t).drop p.length)
      else c :: replaceAllGo p r fuel t

/-- Python `content.replace(old, new)`.  (All patterns this program
replaces are non-empty; the empty-pattern guard keeps the model total.) -/
def replaceAll (s p r : List Char) : List Char :=
  if p.isEmpty then s else replaceAllGo p r s.length s

/-- Python `content.replace(old, new, 1)`: replace only the leftmost
occurrence. -/
def replaceFirst : List Char → List Char → List Char → List Char
  | [], _, _ => []
  | c :: t, p, r =>
    if prefB p (c :: t) then r ++ (c :: t).drop p.length
    else c :: replaceFirst t p r

/-- `p` occurs as a contiguous substring of `s`. -/
def occursB (p : List Char) : List Char → Bool
  | [] => p.isEmpty
  | c :: t => prefB p (c :: t) || occursB p t

/-! ## The document rewriter (`_inline_rdkit_assets` and friends) -/

def rdkitJsName : List Char := "rdkit_minimal.js".toList

def rdkitWasmName : List Char := "RDKit_minimal.wasm".toList

/-- An `AssetBundle`: logical name ↦ embeddable data URI, insertion
ordered as the Python dict built by `preload_rdkit_assets`. -/
def bundleGet (assets : List (List Char × List Char)) (k : List Char) :
    Option (List Char) :=
  (assets.find? (fun kv => kv.1 = k)).map (·.2)

def srcPat : List Char := "src=\"".toList ++ rdkitJsName ++ "\"".toList

def srcRepl (uri : List Char) : List Char := "src=\"".toList ++ uri ++ "\"".toList

def constJsPat : List Char :=
  "const RDKIT_LOCAL_JS = \"".toList ++ rdkitJsName ++ "\";".toList

def constJsRepl (uri : List Char) : List Char :=
  "const RDKIT_LOCAL_JS = \"".toList ++ uri ++ "\";".toList

def hrefPat : List Char := "href=\"".toList ++ rdkitWasmName ++ "\"".toList

def hrefRepl (uri : List Char) : List Char :=
  "href=\"".toList ++ uri ++ "\"".toList

def constWasmPat : List Char :=
  "const RDKIT_LOCAL_WASM = \"".toList ++ rdkitWasmName ++ "\";".toList

def constWasmRepl (uri : List Char) : List Char :=
  "const RDKIT_LOCAL_WASM = \"".toList ++ uri ++ "\";".toList

/-- `fetch_old`: the template's original `fetchWasm` body, matched
character-for-character (CRLF line endings included). -/
def fetchOld : List Char :=
  ("async function fetchWasm(url) \x7b\r\n      const response = await fetch(url);\r\n      if (!response.ok) \x7b\r\n        throw new Error(`Failed to fetch wasm: $\x7bresponse.status\x7d`);\r\n      \x7d\r\n      const buffer = await response.arrayBuffer();\r\n      return new Uint8Array(buffer);\r\n    \x7d").toList

/-- `fetch_new`: the augmented `fetchWasm` installed by the rewriter. -/
def fetchNew : List Char :=
  ("async function fetchWasm(url) \x7b\r\n      if (window.__rdkitPreloadedWasm) \x7b\r\n        return window.__rdkitPreloadedWasm;\r\n      \x7d\r\n      if (url.startsWith(\"data:\")) \x7b\r\n        const base64 = url.split(\",\")[1];\r\n        const binaryString = atob(base64);\r\n        const bytes = new Uint8Array(binaryString.length);\r\n        for (let i = 0; i < binaryString.length; i++) \x7b\r\n          bytes[i] = binaryString.charCodeAt(i);\r\n        \x7d\r\n        window.__rdkitPreloadedWasm = bytes;\r\n        return bytes;\r\n      \x7d\r\n      const response = await fetch(url);\r\n      if (!response.ok) \x7b\r\n        throw new Error(`Failed to fetch wasm: $\x7bresponse.status\x7d`);\r\n      \x7d\r\n      const buffer = await response.arrayBuffer();\r\n      const bytes = new Uint8Array(buffer);\r\n      window.__rdkitPreloadedWasm = bytes;\r\n      return bytes;\r\n    \x7d").toList

/-- The `if js_uri:` branch of `_inline_rdkit_assets`: substitute the
script-source attribute and the `RDKIT_LOCAL_JS` constant. -/
def applyJsStep (content : List Char) (jsUri : Option (List Char)) : List Char :=
  match jsUri with
  | none => content
  | some uri =>
    replaceAll (replaceAll content srcPat (srcRepl uri)) constJsPat (constJsRepl uri)

/-- The two wasm reference substitutions (`href` attribute and the
`RDKIT_LOCAL_WASM` constant). -/
def applyWasmSubs (content uri : List Char) : List Char :=
  replaceAll (replaceAll content hrefPat (hrefRepl uri)) constWasmPat (constWasmRepl uri)

/-- The binary-fetch interception: `content.replace(fetch_old, fetch_new, 1)`. -/
def applyFetchStep (content : List Char) : List Char :=
  replaceFirst content fetchOld fetchNew

/-- The `if wasm_uri:` branch of `_inline_rdkit_assets`. -/
def applyWasmStep (content : List Char) (wasmUri : Option (List Char)) : List Char :=
  match wasmUri with
  | none => content
  | some uri => applyFetchStep (applyWasmSubs content uri)

/-- `_inline_rdkit_assets(content, assets) -> (content, wasm_uri)`. -/
def inlineRdkitAssets (content : List Char)
    (assets : List (List Char × List Char)) : List Char × Option (List Char) :=
  (applyWasmStep (applyJsStep content (bundleGet assets rdkitJsName))
      (bundleGet assets rdkitWasmName),
    bundleGet assets rdkitWasmName)

/-! ## `_strip_inline_rdkit_bootstrap`: the bootstrap-excision regex

The Python code removes (at most) the first match of
`<script>\s*\(function\(\)\s*{[\s\S]*?window\.__rdkitLocalWasm\s*=\s*"__rdkit_inline_wasm__";\s*}\)\(\);\s*</script>\s*`
via `re.sub(..., "", content, count=1)`.  The pattern is a sequence of
literals, greedy `\s*` gaps (each followed by a non-whitespace literal,
so maximal munch is exact) and one lazy `[\s\S]*?` gap (shortest
extension).  The matcher below implements exactly that, returning the
remainder of the input after the match. -/

def dropWs (s : List Char) : List Char := s.dropWhile isWs

/-- Consume a literal, returning the remainder. -/
def stripLit (lit s : List Char) : Option (List Char) :=
  if prefB lit s then some (s.drop lit.length) else none

/-- The fixed part of the bootstrap pattern after the lazy gap:
`window\.__rdkitLocalWasm\s*=\s*"__rdkit_inline_wasm__";\s*}\)\(\);\s*</script>\s*`. -/
def bootstrapTail (s : List Char) : Option (List Char) :=
  (stripLit ("window.__rdkitLocalWasm".toList) s).bind fun s1 =>
  (stripLit ("=".toList) (dropWs s1)).bind fun s2 =>
  (stripLit ("\"__rdkit_inline_wasm__\";".toList) (dropWs s2)).bind fun s3 =>
  (stripLit ("\x7d)();".toList) (dropWs s3)).bind fun s4 =>
  (stripLit ("</script>".toList) (dropWs s4)).map fun s5 => dropWs s5

/-- The lazy gap `[\s\S]*?`: try the tail at the shortest extension first. -/
def bootstrapLazy : List Char → Option (List Char)
  | [] => bootstrapTail []
  | c :: t =>
    match bootstrapTail (c :: t) with
    | some rem => some rem
    | none => bootstrapLazy t

/-- Whether the bootstrap pattern matches at the head of `s`; on success
returns the remainder of `s` after the match. -/
def bootstrapMatchAt (s : List Char) : Option (List Char) :=
  (stripLit ("<script>".toList) s).bind fun s1 =>
  (stripLit ("(function()".toList) (dropWs s1)).bind fun s2 =>
  (stripLit ("\x7b".toList) (dropWs s2)).bind fun s3 =>
  bootstrapLazy s3

/-- Leftmost match of the bootstrap pattern: start position and remainder. -/
def searchBootstrap : List Char → Option (Nat × List Char)
  | [] => none
  | c :: t =>
    match bootstrapMatchAt (c :: t) with
    | some rem => some (0, rem)
    | none => (searchBootstrap t).map (fun pr => (pr.1 + 1, pr.2))

/-- `_strip_inline_rdkit_bootstrap`: `re.sub(pattern, "", content, count=1)`. -/
def stripInlineRdkitBootstrap (content : List Char) : List Char :=
  match searchBootstrap content with
  | none => content
  | some (i, rem) => content.take i ++ rem

/-! ## `_inject_preload_snippet` -/

/-- The preload script up to the interpolated `wasm_uri`. -/
def preloadSnippetA : List Char :=
  ("<script>\n  window.__rdkitPreloadedWasm = (function () \x7b\n    const dataUri = \"").toList

/-- The preload script after the interpolated `wasm_uri`. -/
def preloadSnippetB : List Char :=
  ("\";\n    if (!dataUri.startsWith(\"data:\")) \x7b\n      return null;\n    \x7d\n    const base64 = dataUri.split(\",\")[1];\n    const binaryString = atob(base64);\n    const bytes = new Uint8Array(binaryString.length);\n    for (let i = 0; i < binaryString.length; i++) \x7b\n      bytes[i] = binaryString.charCodeAt(i);\n    \x7d\n    return bytes;\n  \x7d)();\n</script>\n").toList

def headCloseTag : List Char := "</head>".toList

/-- `_inject_preload_snippet(content, wasm_uri)`. -/
def injectPreloadSnippet (content : List Char) (wasmUri : Option (List Char)) :
    List Char :=
  match wasmUri with
  | none => content
  | some uri =>
    let preload := preloadSnippetA ++ uri ++ preloadSnippetB
    if occursB headCloseTag content then
      replaceFirst content headCloseTag (preload ++ headCloseTag)
    else
      preload ++ content

/-! ## The Asset Cache (`_encode_data_uri`, `preload_rdkit_assets`) -/

/-- Standard base64 alphabet. -/
def b64Table : List Char :=
  "ABCDEFGHIJKLMNOPQRSTUVWXYZabcdefghijklmnopqrstuvwxyz0123456789+/".toList

def b64Digit (n : Nat) : Char := b64Table.getD n 'A'

/-- `base64.b64encode` on a byte list (each byte `< 256`). -/
def b64encode : List Nat → List Char
  | [] => []
  | [b1] => [b64Digit (b1 / 4), b64Digit (b1 % 4 * 16), '=', '=']
  | [b1, b2] =>
    [b64Digit (b1 / 4), b64Digit (b1 % 4 * 16 + b2 / 16), b64Digit (b2 % 16 * 4), '=']
  | b1 :: b2 :: b3 :: rest =>
    b64Digit (b1 / 4) :: b64Digit (b1 % 4 * 16 + b2 / 16) ::
      b64Digit (b2 % 16 * 4 + b3 / 64) :: b64Digit (b3 % 64) :: b64encode rest

/-- The backing asset store: logical filename ↦ bytes (`none` = file
does not exist). -/
def Store : Type := List Char → Option (List Nat)

/-- `_encode_data_uri`: `data:<mime>;base64,<payload>` when the backing
file exists, `None` otherwise. -/
def encodeDataUri (store : Store) (filename mime : List Char) :
    Option (List Char) :=
  (store filename).map fun bytes =>
    "data:".toList ++ mime ++ ";base64,".toList ++ b64encode bytes

/-- `RDKit_ASSETS`: the two build-time asset descriptors. -/
def rdkitAssets : List (List Char × List Char) :=
  [(rdkitJsName, "application/javascript".toList),
    (rdkitWasmName, "application/wasm".toList)]

/-- The body of `preload_rdkit_assets`: attempt each known asset,
omitting entries whose backing file is missing. -/
def preloadRdkitAssetsBody (store : Store) : List (List Char × List Char) :=
  rdkitAssets.foldl
    (fun acc nm =>
      match encodeDataUri store nm.1 nm.2 with
      | some uri => acc ++ [(nm.1, uri)]
      | none => acc)
    []

/-- Modelled from the spec: the process-wide memoization performed by the
`st.cache_resource` decorator on `preload_rdkit_assets` (the decorator is
an external-framework capability, not part of this repository's source).
`bundleCache` is the write-once cached bundle; `readCount` counts backing
storage accesses (one per asset attempted). -/
structure CacheState where
  bundleCache : Option (List (List Char × List Char))
  readCount : Nat
deriving DecidableEq

/-- The cached accessor `preload_rdkit_assets()`: on a hit return the
cached bundle untouched; on a miss compute it (reading the backing store
once per asset) and record it. -/
def preloadRdkitAssets (store : Store) (st : CacheState) :
    List (List Char × List Char) × CacheState :=
  match st.bundleCache with
  | some b => (b, st)
  | none =>
    let b := preloadRdkitAssetsBody store
    (b, ⟨some b, st.readCount + rdkitAssets.length⟩)

/-! ## `_build_inline_app`, `load_html`, and the module top level

`_build_inline_app` early-returns `None` unless both data URIs are
present.  Otherwise it evaluates the `f"""…"""` template.  That template
escapes literal braces as `{{`/`}}` throughout (e.g. `forEach((smiles,
index) => {{`), but two JavaScript template literals are written with
single braces — line 288 `` `Step ${index + 1}` `` and line 337
`` `<strong>Error parsing:</strong> ${smiles}` `` — so Python parses
`{index + 1}` and `{smiles}` as replacement fields.  Neither `index` nor
`smiles` is a defined Python name, so evaluating the f-string raises
`NameError` (the first field evaluated in textual order is
`{index + 1}`).  Fallible code is embedded with `Except`: the error value
is the `NameError` message. -/

def nameErrorIndexMsg : List Char :=
  "name \x27index\x27 is not defined".toList

/-- `_build_inline_app(assets)`: `.ok none` when either payload is
missing (early return), otherwise the f-string evaluation raises. -/
def buildInlineApp (assets : List (List Char × List Char)) :
    Except (List Char) (Option (List Char)) :=
  match bundleGet assets rdkitJsName, bundleGet assets rdkitWasmName with
  | some _, some _ => Except.error nameErrorIndexMsg
  | _, _ => Except.ok none

/-- `load_html()`: `external` models `_has_valid_external_html()` — `some
content` when `index.html` exists and is non-empty.  On the external
path run the three rewrite stages; otherwise fall back to the inline
app. -/
def loadHtml (external : Option (List Char))
    (assets : List (List Char × List Char)) :
    Except (List Char) (Option (List Char)) :=
  match external with
  | some content =>
    let c1 := stripInlineRdkitBootstrap content
    let pr := inlineRdkitAssets c1 assets
    Except.ok (some (injectPreloadSnippet pr.1 pr.2))
  | none => buildInlineApp assets

def rdkitAssetErrorMsg : List Char :=
  "Cannot load RDKit assets. Please verify rdkit_minimal.js and RDKit_minimal.wasm.".toList

/-- What the page ends up showing. -/
inductive AppView where
  | embedded (html : List Char) (height : Nat) (scrolling : Bool)
  | errorBox (msg : List Char)
  | raised (msg : List Char)
deriving DecidableEq

/-- The module top level: `html_content = load_html()`; `if
html_content:` embed it (falsy `None`/`""` shows `st.error`); an
uncaught exception surfaces as a traceback, not the `st.error` box. -/
def appMain (loaded : Except (List Char) (Option (List Char))) : AppView :=
  match loaded with
  | Except.error e => AppView.raised e
  | Except.ok h =>
    match h with
    | some c => if c.isEmpty then AppView.errorBox rdkitAssetErrorMsg
                else AppView.embedded c 900 true
    | none => AppView.errorBox rdkitAssetErrorMsg

/-! ## Side conditions for the replacement lemmas

`killOkB p r`: replacing `p` by `r` leaves no occurrence of `p` — `p`
does not occur in `r`, no nonempty proper prefix of `p` is a suffix of
`r`, no nonempty proper suffix of `p` is a prefix of `r`, and `r` is
longer than `p`.

`createSafeB p r`: splicing `r` into a `p`-free text cannot create an
occurrence of `p` — `p` does not occur in `r`, no nonempty suffix of `p`
is a prefix of `r`, no nonempty prefix of `p` is a suffix of `r`, and
`r` is longer than `p`.

`preserveOkB p q`: occurrences of `p` and `q` can never intersect —
neither occurs inside the other and no nonempty suffix of one is a
prefix of the other — so replacing `q` keeps every occurrence of `p`. -/

def killOkB (p r : List Char) : Bool :=
  !p.isEmpty && !occursB p r && decide (p.length < r.length) &&
  (p.inits.all fun x => x.isEmpty || decide (x.length = p.length) || !suffB x r) &&
  (p.tails.all fun y => y.isEmpty || decide (y.length = p.length) || !prefB y r)

def createSafeB (p r : List Char) : Bool :=
  !occursB p r && decide (p.length < r.length) &&
  (p.tails.all fun y => y.isEmpty || !prefB y r) &&
  (p.inits.all fun x => x.isEmpty || !suffB x r)

def preserveOkB (p q : List Char) : Bool :=
  !p.isEmpty && !q.isEmpty && !occursB p q && !occursB q p &&
  (p.tails.all fun y => y.isEmpty || !prefB y q) &&
  (q.tails.all fun y => y.isEmpty || !prefB y p)

/-! ## Concrete engines used in witnesses and counterexamples -/

/-- A demo engine: `get_mol` throws exactly on the string `"??"`,
`get_svg` always succeeds. -/
def demoEngine : Engine :=
  ⟨fun s => if s = "??".toList then none else some s.length,
   fun _ => some "<svg/>".toList⟩

/-- An engine whose `get_svg` always throws (exercises the
depiction-failure path after a successful parse). -/
def svgFailEngine : Engine :=
  ⟨fun s => some s.length, fun _ => none⟩

/-! ## Basic lemmas about prefixes, suffixes and substring occurrence -/

theorem prefB_iff : ∀ p s : List Char, prefB p s = true ↔ p <+: s := by
  intro p
  induction p with
  | nil => intro s; simp only [prefB, true_iff]; exact ⟨s, rfl⟩
  | cons c p ih =>
    intro s
    cases s with
    | nil =>
      simp only [prefB, Bool.false_eq_true, false_iff]
      rintro ⟨t, ht⟩
      simp at ht
    | cons d s =>
      simp only [prefB, Bool.and_eq_true, decide_eq_true_eq, ih]
      constructor
      · rintro ⟨rfl, t, rfl⟩
        exact ⟨t, rfl⟩
      · rintro ⟨t, ht⟩
        injection ht with h1 h2
        exact ⟨h1, t, h2⟩

theorem suffB_iff (p s : List Char) : suffB p s = true ↔ p <:+ s := by
  unfold suffB
  rw [prefB_iff]
  exact List.reverse_prefix

theorem occCons {p t : List Char} {c : Char} :
    p <:+: (c :: t) ↔ p <+: (c :: t) ∨ p <:+: t := by
  constructor
  · rintro ⟨u, v, huv⟩
    cases u with
    | nil => exact Or.inl ⟨v, huv⟩
    | cons e u =>
      injection huv with h1 h2
      exact Or.inr ⟨u, v, h2⟩
  · rintro (⟨v, hv⟩ | ⟨u, v, huv⟩)
    · exact ⟨[], v, hv⟩
    · exact ⟨c :: u, v, by rw [← huv]; rfl⟩

theorem occursB_iff : ∀ s p : List Char, occursB p s = true ↔ p <:+: s := by
  intro s
  induction s with
  | nil =>
    intro p
    simp only [occursB, List.isEmpty_iff]
    constructor
    · rintro rfl; exact ⟨[], [], rfl⟩
    · rintro ⟨u, v, huv⟩
      cases u <;> cases p <;> simp_all
  | cons c t ih =>
    intro p
    simp only [occursB, Bool.or_eq_true, prefB_iff, ih, occCons]

theorem occ_of_pref {p s : List Char} (h : p <+: s) : p <:+: s := by
  obtain ⟨t, ht⟩ := h
  exact ⟨[], t, ht⟩

theorem occ_append_right {p B : List Char} (A : List Char) (h : p <:+: B) :
    p <:+: A ++ B := by
  obtain ⟨u, v, huv⟩ := h
  exact ⟨A ++ u, v, by rw [← huv]; simp⟩

theorem occ_of_suff {p u s : List Char} (h : p <:+: u) (hu : u <:+ s) :
    p <:+: s := by
  obtain ⟨a, b, hab⟩ := h
  obtain ⟨w, hw⟩ := hu
  exact ⟨w ++ a, b, by rw [← hw, ← hab]; simp⟩

theorem suff_trans {y w p : List Char} (h1 : y <:+ w) (h2 : w <:+ p) : y <:+ p := by
  obtain ⟨a, ha⟩ := h1
  obtain ⟨b, hb⟩ := h2
  exact ⟨b ++ a, by rw [← hb, ← ha]; simp⟩

theorem pref_append_split {p A B : List Char} (h : p <+: A ++ B) :
    p <+: A ∨ ∃ y, A ++ y = p ∧ y <+: B := by
  induction A generalizing p with
  | nil => exact Or.inr ⟨p, rfl, h⟩
  | cons a A ih =>
    cases p with
    | nil => exact Or.inl ⟨a :: A, rfl⟩
    | cons c p =>
      obtain ⟨t, ht⟩ := h
      injection ht with h1 h2
      subst h1
      rcases ih ⟨t, h2⟩ with hpA | ⟨y, hy, hyB⟩
      · obtain ⟨w, hw⟩ := hpA
        exact Or.inl ⟨w, by rw [← hw]; rfl⟩
      · exact Or.inr ⟨y, by rw [← hy]; rfl, hyB⟩

theorem pref_len_le {p A B : List Char} (h : p <+: A ++ B)
    (hl : p.length ≤ A.length) : p <+: A := by
  rcases pref_append_split h with hp | ⟨y, hy, _⟩
  · exact hp
  · cases y with
    | nil => rw [List.append_nil] at hy; exact hy ▸ List.prefix_rfl
    | cons e y =>
      exfalso
      have := congrArg List.length hy
      simp at this
      omega

theorem pref_pref_le : ∀ (q w s : List Char), q <+: s → w <+: s →
    q.length ≤ w.length → q <+: w := by
  intro q
  induction q with
  | nil => intro w s _ _ _; exact ⟨w, rfl⟩
  | cons d q ih =>
    intro w s hq hw hl
    cases w with
    | nil => simp at hl
    | cons e w =>
      cases s with
      | nil => obtain ⟨t, ht⟩ := hq; simp at ht
      | cons f s =>
        obtain ⟨t, ht⟩ := hq
        obtain ⟨u, hu⟩ := hw
        injection ht with h1 h2
        injection hu with h3 h4
        subst h1; subst h3
        have := ih w s ⟨t, h2⟩ ⟨u, h4⟩ (by simpa using hl)
        obtain ⟨v, hv⟩ := this
        exact ⟨v, by rw [← hv]; rfl⟩

theorem pref_drop_eq {q s : List Char} (h : q <+: s) :
    q ++ s.drop q.length = s := by
  obtain ⟨t, ht⟩ := h
  subst ht
  rw [List.drop_left]

theorem occ_append_split {p A B : List Char} (h : p <:+: A ++ B) :
    p <:+: A ∨ p <:+: B ∨
      ∃ x y, x ++ y = p ∧ x ≠ [] ∧ y ≠ [] ∧ x <:+ A ∧ y <+: B := by
  induction A with
  | nil => exact Or.inr (Or.inl h)
  | cons a A ih =>
    rcases occCons.mp h with hp | ht
    · rcases pref_append_split (p := p) (A := a :: A) (B := B) hp with hpA | ⟨y, hy, hyB⟩
      · exact Or.inl (occ_of_pref hpA)
      · cases y with
        | nil =>
          rw [List.append_nil] at hy
          exact Or.inl ⟨[], [], by rw [hy]; simp⟩
        | cons e y =>
          exact Or.inr (Or.inr ⟨a :: A, e :: y, hy, by simp, by simp,
            List.suffix_rfl, hyB⟩)
    · rcases ih ht with hA | hB | ⟨x, y, hxy, hx, hy, hxA, hyB⟩
      · exact Or.inl (occ_of_suff hA ⟨[a], rfl⟩)
      · exact Or.inr (Or.inl hB)
      · exact Or.inr (Or.inr ⟨x, y, hxy, hx, hy, suff_trans hxA ⟨[a], rfl⟩, hyB⟩)

/-! ## Unpacking the side conditions -/

theorem killOk_spec {p r : List Char} (h : killOkB p r = true) :
    p ≠ [] ∧ ¬ p <:+: r ∧ p.length < r.length ∧
      (∀ x, x <+: p → x ≠ [] → x.length < p.length → ¬ x <:+ r) ∧
      (∀ y, y <:+ p → y ≠ [] → y.length < p.length → ¬ y <+: r) := by
  unfold killOkB at h
  simp only [Bool.and_eq_true, Bool.not_eq_true', List.all_eq_true,
    decide_eq_true_eq, Bool.or_eq_true, List.isEmpty_iff] at h
  obtain ⟨⟨⟨⟨h1, h2⟩, h3⟩, h4⟩, h5⟩ := h
  have h1n : p ≠ [] := by cases p <;> simp_all
  refine ⟨h1n, ?_, h3, ?_, ?_⟩
  · intro hocc
    rw [← occursB_iff] at hocc
    rw [h2] at hocc
    exact absurd hocc (by simp)
  · intro x hx hxne hxlen hxsuf
    rcases h4 x ((List.mem_inits _ _).mpr hx) with (he | hl) | hs
    · exact hxne he
    · omega
    · rw [← suffB_iff, hs] at hxsuf
      exact absurd hxsuf (by simp)
  · intro y hy hyne hylen hypre
    rcases h5 y ((List.mem_tails _ _).mpr hy) with (he | hl) | hs
    · exact hyne he
    · omega
    · rw [← prefB_iff, hs] at hypre
      exact absurd hypre (by simp)

theorem createSafe_spec {p r : List Char} (h : createSafeB p r = true) :
    ¬ p <:+: r ∧ p.length < r.length ∧
      (∀ y, y <:+ p → y ≠ [] → ¬ y <+: r) ∧
      (∀ x, x <+: p → x ≠ [] → ¬ x <:+ r) := by
  unfold createSafeB at h
  simp only [Bool.and_eq_true, Bool.not_eq_true', List.all_eq_true,
    decide_eq_true_eq, Bool.or_eq_true, List.isEmpty_iff] at h
  obtain ⟨⟨⟨h1, h2⟩, h3⟩, h4⟩ := h
  refine ⟨?_, h2, ?_, ?_⟩
  · intro hocc
    rw [← occursB_iff] at hocc
    rw [h1] at hocc
    exact absurd hocc (by simp)
  · intro y hy hyne hypre
    rcases h3 y ((List.mem_tails _ _).mpr hy) with he | hs
    · exact hyne he
    · rw [← prefB_iff, hs] at hypre
      exact absurd hypre (by simp)
  · intro x hx hxne hxsuf
    rcases h4 x ((List.mem_inits _ _).mpr hx) with he | hs
    · exact hxne he
    · rw [← suffB_iff, hs] at hxsuf
      exact absurd hxsuf (by simp)

theorem preserveOk_spec {p q : List Char} (h : preserveOkB p q = true) :
    p ≠ [] ∧ q ≠ [] ∧ ¬ p <:+: q ∧ ¬ q <:+: p ∧
      (∀ y, y <:+ p → y ≠ [] → ¬ y <+: q) ∧
      (∀ y, y <:+ q → y ≠ [] → ¬ y <+: p) := by
  unfold preserveOkB at h
  simp only [Bool.and_eq_true, Bool.not_eq_true', List.all_eq_true,
    decide_eq_true_eq, Bool.or_eq_true, List.isEmpty_iff] at h
  obtain ⟨⟨⟨⟨⟨h1, h2⟩, h3⟩, h4⟩, h5⟩, h6⟩ := h
  have h1n : p ≠ [] := by cases p <;> simp_all
  have h2n : q ≠ [] := by cases q <;> simp_all
  refine ⟨h1n, h2n, ?_, ?_, ?_, ?_⟩
  · intro hocc
    rw [← occursB_iff] at hocc
    rw [h3] at hocc
    exact absurd hocc (by simp)
  · intro hocc
    rw [← occursB_iff] at hocc
    rw [h4] at hocc
    exact absurd hocc (by simp)
  · intro y hy hyne hypre
    rcases h5 y ((List.mem_tails _ _).mpr hy) with he | hs
    · exact hyne he
    · rw [← prefB_iff, hs] at hypre
      exact absurd hypre (by simp)
  · intro y hy hyne hypre
    rcases h6 y ((List.mem_tails _ _).mpr hy) with he | hs
    · exact hyne he
    · rw [← prefB_iff, hs] at hypre
      exact absurd hypre (by simp)

/-! ## Replacement kills every occurrence of the pattern -/

theorem killGo {p r : List Char} (hne : p ≠ []) (hocc : ¬ p <:+: r)
    (hpre : ∀ x, x <+: p → x ≠ [] → x.length < p.length → ¬ x <:+ r)
    (hsuf : ∀ y, y <:+ p → y ≠ [] → y.length < p.length → ¬ y <+: r)
    (hlen : p.length < r.length) :
    ∀ fuel s, s.length ≤ fuel →
      (¬ p <:+: replaceAllGo p r fuel s) ∧
      (∀ y, y <:+ p → y ≠ [] → y.length < p.length →
        y <+: replaceAllGo p r fuel s → y <+: s) := by
  intro fuel
  induction fuel with
  | zero =>
    intro s hs
    have hnil : s = [] := List.eq_nil_of_length_eq_zero (Nat.le_zero.mp hs)
    subst hnil
    rw [replaceAllGo]
    constructor
    · rintro ⟨a, b, hab⟩
      simp only [List.append_eq_nil] at hab
      exact hne hab.1.2
    · intro y _ _ _ hpref
      exact hpref
  | succ fuel ih =>
    intro s hs
    cases s with
    | nil =>
      rw [replaceAllGo]
      constructor
      · rintro ⟨a, b, hab⟩
        simp only [List.append_eq_nil] at hab
        exact hne hab.1.2
      · intro y _ _ _ hpref
        exact hpref
    | cons c t =>
      by_cases hm : prefB p (c :: t) = true
      · have hppre : p <+: c :: t := (prefB_iff _ _).mp hm
        have hsplit : p ++ (c :: t).drop p.length = c :: t := pref_drop_eq hppre
        have hp1 : 1 ≤ p.length := by
          cases p with
          | nil => exact absurd rfl hne
          | cons d p' => simp
        have hul : ((c :: t).drop p.length).length ≤ fuel := by
          rw [List.length_drop]
          have : (c :: t).length ≤ fuel + 1 := hs
          omega
        obtain ⟨ih1, ih2⟩ := ih _ hul
        have hgo : replaceAllGo p r (fuel + 1) (c :: t) =
            r ++ replaceAllGo p r fuel ((c :: t).drop p.length) := by
          rw [replaceAllGo]
          simp only [if_pos hm]
        constructor
        · intro hinf
          rw [hgo] at hinf
          rcases occ_append_split hinf with hr | hgo' | ⟨x, y, hxy, hxne, hyne, hxr, _⟩
          · exact hocc hr
          · exact ih1 hgo'
          · have hxp : x <+: p := ⟨y, hxy⟩
            have hxlen : x.length < p.length := by
              have hl := congrArg List.length hxy
              simp only [List.length_append] at hl
              have hy1 : 1 ≤ y.length := by
                cases y with
                | nil => exact absurd rfl hyne
                | cons e y' => simp
              omega
            exact hpre x hxp hxne hxlen hxr
        · intro y hy hyne hylen hpref
          rw [hgo] at hpref
          have hyr : y <+: r := pref_len_le hpref (by omega)
          exact absurd hyr (hsuf y hy hyne hylen)
      · obtain ⟨ih1, ih2⟩ := ih t (by
          have : (c :: t).length ≤ fuel + 1 := hs
          simp only [List.length_cons] at this
          omega)
        have hgo : replaceAllGo p r (fuel + 1) (c :: t) =
            c :: replaceAllGo p r fuel t := by
          rw [replaceAllGo]
          simp only [if_neg hm]
        constructor
        · intro hinf
          rw [hgo] at hinf
          rcases occCons.mp hinf with hp | ht
          · cases p with
            | nil => exact hne rfl
            | cons d p' =>
              obtain ⟨w, hw⟩ := hp
              injection hw with h1 h2
              cases p' with
              | nil =>
                apply hm
                rw [prefB_iff, h1]
                exact ⟨t, rfl⟩
              | cons e p'' =>
                have hrec := ih2 (e :: p'') ⟨[d], rfl⟩ (by simp)
                  (by simp) ⟨w, h2⟩
                obtain ⟨v, hv⟩ := hrec
                apply hm
                rw [prefB_iff, h1]
                exact ⟨v, by rw [← hv]; rfl⟩
          · exact ih1 ht
        · intro y hy hyne hylen hpref
          rw [hgo] at hpref
          cases y with
          | nil => exact absurd rfl hyne
          | cons e y' =>
            obtain ⟨w, hw⟩ := hpref
            injection hw with h1 h2
            subst h1
            cases y' with
            | nil => exact ⟨t, rfl⟩
            | cons f y'' =>
              have hsub : (f :: y'') <:+ p := suff_trans ⟨[e], rfl⟩ hy
              have hlt : (f :: y'').length < p.length := by
                have : (e :: f :: y'').length ≤ p.length := by
                  obtain ⟨a, ha⟩ := hy
                  have := congrArg List.length ha
                  simp only [List.length_append] at this
                  omega
                simp only [List.length_cons] at this ⊢
                omega
              obtain ⟨v, hv⟩ := ih2 (f :: y'') hsub (by simp) hlt ⟨w, h2⟩
              exact ⟨v, by rw [← hv]; rfl⟩

/-- After `content.replace(p, r)` (with `killOkB p r`), `p` no longer
occurs anywhere in the result. -/
theorem replaceAll_kill {p r : List Char} (h : killOkB p r = true)
    (s : List Char) : ¬ p <:+: replaceAll s p r := by
  obtain ⟨hne, hocc, hlen, hpre, hsuf⟩ := killOk_spec h
  unfold replaceAll
  have hemp : p.isEmpty = false := by
    cases p with
    | nil => exact absurd rfl hne
    | cons c t => rfl
  rw [hemp]
  simp only [Bool.false_eq_true, if_false]
  exact (killGo hne hocc hpre hsuf hlen s.length s le_rfl).1

/-! ## Replacement cannot create occurrences of an unrelated pattern -/

theorem ncGo {p q r : List Char} (hq : q ≠ []) (hocc : ¬ p <:+: r)
    (hsuf : ∀ y, y <:+ p → y ≠ [] → ¬ y <+: r)
    (hpre : ∀ x, x <+: p → x ≠ [] → ¬ x <:+ r)
    (hlen : p.length < r.length) :
    ∀ fuel s, s.length ≤ fuel → ¬ p <:+: s →
      (¬ p <:+: replaceAllGo q r fuel s) ∧
      (∀ y, y <:+ p → y ≠ [] → y <+: replaceAllGo q r fuel s → y <+: s) := by
  intro fuel
  induction fuel with
  | zero =>
    intro s hs hps
    rw [replaceAllGo]
    exact ⟨hps, fun y _ _ h => h⟩
  | succ fuel ih =>
    intro s hs hps
    cases s with
    | nil =>
      rw [replaceAllGo]
      exact ⟨hps, fun y _ _ h => h⟩
    | cons c t =>
      by_cases hm : prefB q (c :: t) = true
      · have hqpre : q <+: c :: t := (prefB_iff _ _).mp hm
        have hsplit : q ++ (c :: t).drop q.length = c :: t := pref_drop_eq hqpre
        have hq1 : 1 ≤ q.length := by
          cases q with
          | nil => exact absurd rfl hq
          | cons d q' => simp
        have hul : ((c :: t).drop q.length).length ≤ fuel := by
          rw [List.length_drop]
          have : (c :: t).length ≤ fuel + 1 := hs
          omega
        have hpu : ¬ p <:+: (c :: t).drop q.length := by
          intro hx
          exact hps (occ_of_suff hx (List.drop_suffix _ _))
        obtain ⟨ih1, ih2⟩ := ih _ hul hpu
        have hgo : replaceAllGo q r (fuel + 1) (c :: t) =
            r ++ replaceAllGo q r fuel ((c :: t).drop q.length) := by
          rw [replaceAllGo]
          simp only [if_pos hm]
        constructor
        · intro hinf
          rw [hgo] at hinf
          rcases occ_append_split hinf with hr | hgo' | ⟨x, y, hxy, hxne, _, hxr, _⟩
          · exact hocc hr
          · exact ih1 hgo'
          · exact hpre x ⟨y, hxy⟩ hxne hxr
        · intro y hy hyne hpref
          rw [hgo] at hpref
          have hyl : y.length ≤ p.length := by
            obtain ⟨a, ha⟩ := hy
            have := congrArg List.length ha
            simp only [List.length_append] at this
            omega
          have hyr : y <+: r := pref_len_le hpref (by omega)
          exact absurd hyr (hsuf y hy hyne)
      · have hpt : ¬ p <:+: t := fun hx => hps (occCons.mpr (Or.inr hx))
        obtain ⟨ih1, ih2⟩ := ih t (by
          have : (c :: t).length ≤ fuel + 1 := hs
          simp only [List.length_cons] at this
          omega) hpt
        have hgo : replaceAllGo q r (fuel + 1) (c :: t) =
            c :: replaceAllGo q r fuel t := by
          rw [replaceAllGo]
          simp only [if_neg hm]
        constructor
        · intro hinf
          rw [hgo] at hinf
          rcases occCons.mp hinf with hp | ht
          · cases p with
            | nil => exact hps ⟨[], c :: t, rfl⟩
            | cons d p' =>
              obtain ⟨w, hw⟩ := hp
              injection hw with h1 h2
              cases p' with
              | nil =>
                apply hps
                apply occ_of_pref
                rw [h1]
                exact ⟨t, rfl⟩
              | cons e p'' =>
                obtain ⟨v, hv⟩ := ih2 (e :: p'') ⟨[d], rfl⟩ (by simp) ⟨w, h2⟩
                apply hps
                apply occ_of_pref
                rw [h1]
                exact ⟨v, by rw [← hv]; rfl⟩
          · exact ih1 ht
        · intro y hy hyne hpref
          rw [hgo] at hpref
          cases y with
          | nil => exact absurd rfl hyne
          | cons e y' =>
            obtain ⟨w, hw⟩ := hpref
            injection hw with h1 h2
            subst h1
            cases y' with
            | nil => exact ⟨t, rfl⟩
            | cons f y'' =>
              obtain ⟨v, hv⟩ := ih2 (f :: y'') (suff_trans ⟨[e], rfl⟩ hy)
                (by simp) ⟨w, h2⟩
              exact ⟨v, by rw [← hv]; rfl⟩

/-- `content.replace(q, r)` (with `createSafeB p r`) cannot introduce an
occurrence of `p` where none existed. -/
theorem replaceAll_noCreate {p r : List Char} (h : createSafeB p r = true)
    (q s : List Char) (hps : ¬ p <:+: s) : ¬ p <:+: replaceAll s q r := by
  obtain ⟨hocc, hlen, hsuf, hpre⟩ := createSafe_spec h
  unfold replaceAll
  cases hqe : q.isEmpty
  · simp only [Bool.false_eq_true, if_false]
    have hq : q ≠ [] := by
      cases q with
      | nil => simp at hqe
      | cons d q' => simp
    exact (ncGo hq hocc hsuf hpre hlen s.length s le_rfl hps).1
  · simp only [if_true]
    exact hps

theorem rfAux {p q r : List Char} (hocc : ¬ p <:+: r)
    (hsuf : ∀ y, y <:+ p → y ≠ [] → ¬ y <+: r)
    (hpre : ∀ x, x <+: p → x ≠ [] → ¬ x <:+ r)
    (hlen : p.length < r.length) :
    ∀ s, ¬ p <:+: s →
      (¬ p <:+: replaceFirst s q r) ∧
      (∀ y, y <:+ p → y ≠ [] → y <+: replaceFirst s q r → y <+: s) := by
  intro s
  induction s with
  | nil =>
    intro hps
    rw [replaceFirst]
    exact ⟨hps, fun y _ _ h => h⟩
  | cons c t ih =>
    intro hps
    by_cases hm : prefB q (c :: t) = true
    · have hgo : replaceFirst (c :: t) q r = r ++ (c :: t).drop q.length := by
        rw [replaceFirst]
        simp only [if_pos hm]
      have hpu : ¬ p <:+: (c :: t).drop q.length := by
        intro hx
        exact hps (occ_of_suff hx (List.drop_suffix _ _))
      constructor
      · intro hinf
        rw [hgo] at hinf
        rcases occ_append_split hinf with hr | hu | ⟨x, y, hxy, hxne, _, hxr, _⟩
        · exact hocc hr
        · exact hpu hu
        · exact hpre x ⟨y, hxy⟩ hxne hxr
      · intro y hy hyne hpref
        rw [hgo] at hpref
        have hyl : y.length ≤ p.length := by
          obtain ⟨a, ha⟩ := hy
          have := congrArg List.length ha
          simp only [List.length_append] at this
          omega
        have hyr : y <+: r := pref_len_le hpref (by omega)
        exact absurd hyr (hsuf y hy hyne)
    · have hpt : ¬ p <:+: t := fun hx => hps (occCons.mpr (Or.inr hx))
      obtain ⟨ih1, ih2⟩ := ih hpt
      have hgo : replaceFirst (c :: t) q r = c :: replaceFirst t q r := by
        rw [replaceFirst]
        simp only [if_neg hm]
      constructor
      · intro hinf
        rw [hgo] at hinf
        rcases occCons.mp hinf with hp | ht
        · cases p with
          | nil => exact hps ⟨[], c :: t, rfl⟩
          | cons d p' =>
            obtain ⟨w, hw⟩ := hp
            injection hw with h1 h2
            cases p' with
            | nil =>
              apply hps
              apply occ_of_pref
              rw [h1]
              exact ⟨t, rfl⟩
            | cons e p'' =>
              obtain ⟨v, hv⟩ := ih2 (e :: p'') ⟨[d], rfl⟩ (by simp) ⟨w, h2⟩
              apply hps
              apply occ_of_pref
              rw [h1]
              exact ⟨v, by rw [← hv]; rfl⟩
        · exact ih1 ht
      · intro y hy hyne hpref
        rw [hgo] at hpref
        cases y with
        | nil => exact absurd rfl hyne
        | cons e y' =>
          obtain ⟨w, hw⟩ := hpref
          injection hw with h1 h2
          subst h1
          cases y' with
          | nil => exact ⟨t, rfl⟩
          | cons f y'' =>
            obtain ⟨v, hv⟩ := ih2 (f :: y'') (suff_trans ⟨[e], rfl⟩ hy)
              (by simp) ⟨w, h2⟩
            exact ⟨v, by rw [← hv]; rfl⟩

/-- `content.replace(q, r, 1)` (with `createSafeB p r`) cannot introduce
an occurrence of `p` where none existed. -/
theorem replaceFirst_noCreate {p r : List Char} (h : createSafeB p r = true)
    (q s : List Char) (hps : ¬ p <:+: s) : ¬ p <:+: replaceFirst s q r := by
  obtain ⟨hocc, hlen, hsuf, hpre⟩ := createSafe_spec h
  exact (rfAux hocc hsuf hpre hlen s hps).1

/-! ## Replacement preserves occurrences of a non-overlapping pattern -/

theorem presGo {p q r : List Char} (hq : q ≠ []) (hpq : ¬ p <:+: q)
    (hqp : ¬ q <:+: p)
    (hsp : ∀ y, y <:+ p → y ≠ [] → ¬ y <+: q)
    (hsq : ∀ y, y <:+ q → y ≠ [] → ¬ y <+: p) :
    ∀ fuel s, s.length ≤ fuel →
      ((p <:+: s → p <:+: replaceAllGo q r fuel s) ∧
       (∀ w, w <:+ p → w <+: s → w <+: replaceAllGo q r fuel s)) := by
  intro fuel
  induction fuel with
  | zero =>
    intro s hs
    rw [replaceAllGo]
    exact ⟨fun h => h, fun w _ h => h⟩
  | succ fuel ih =>
    intro s hs
    cases s with
    | nil =>
      rw [replaceAllGo]
      exact ⟨fun h => h, fun w _ h => h⟩
    | cons c t =>
      by_cases hm : prefB q (c :: t) = true
      · have hqpre : q <+: c :: t := (prefB_iff _ _).mp hm
        have hsplit : q ++ (c :: t).drop q.length = c :: t := pref_drop_eq hqpre
        have hq1 : 1 ≤ q.length := by
          cases q with
          | nil => exact absurd rfl hq
          | cons d q' => simp
        have hul : ((c :: t).drop q.length).length ≤ fuel := by
          rw [List.length_drop]
          have : (c :: t).length ≤ fuel + 1 := hs
          omega
        obtain ⟨ih1, ih2⟩ := ih _ hul
        have hgo : replaceAllGo q r (fuel + 1) (c :: t) =
            r ++ replaceAllGo q r fuel ((c :: t).drop q.length) := by
          rw [replaceAllGo]
          simp only [if_pos hm]
        have hii : ∀ w, w <:+ p → w <+: (c :: t) →
            w <+: replaceAllGo q r (fuel + 1) (c :: t) := by
          intro w hw hws
          cases w with
          | nil => exact ⟨_, rfl⟩
          | cons e w' =>
            by_cases hlw : q.length ≤ (e :: w').length
            · exfalso
              have hqw : q <+: (e :: w') := pref_pref_le q (e :: w') (c :: t) hqpre hws hlw
              apply hqp
              obtain ⟨rest, hrest⟩ := hqw
              obtain ⟨a, ha⟩ := hw
              exact ⟨a, rest, by rw [← ha, ← hrest]; simp⟩
            · exfalso
              have hwq : (e :: w') <+: q :=
                pref_pref_le (e :: w') q (c :: t) hws hqpre (by omega)
              exact hsp (e :: w') hw (by simp) hwq
        refine ⟨?_, hii⟩
        intro hinf
        rw [hgo]
        rw [← hsplit] at hinf
        rcases occ_append_split hinf with hiq | hiu | ⟨x, y, hxy, hxne, _, hxq, hyu⟩
        · exact absurd hiq hpq
        · exact occ_append_right r (ih1 hiu)
        · exact absurd (⟨y, hxy⟩ : x <+: p) (hsq x hxq hxne)
      · obtain ⟨ih1, ih2⟩ := ih t (by
          have : (c :: t).length ≤ fuel + 1 := hs
          simp only [List.length_cons] at this
          omega)
        have hgo : replaceAllGo q r (fuel + 1) (c :: t) =
            c :: replaceAllGo q r fuel t := by
          rw [replaceAllGo]
          simp only [if_neg hm]
        have hii : ∀ w, w <:+ p → w <+: (c :: t) →
            w <+: replaceAllGo q r (fuel + 1) (c :: t) := by
          intro w hw hws
          rw [hgo]
          cases w with
          | nil => exact ⟨_, rfl⟩
          | cons e w' =>
            obtain ⟨u, hu⟩ := hws
            injection hu with h1 h2
            subst h1
            obtain ⟨v, hv⟩ := ih2 w' (suff_trans ⟨[e], rfl⟩ hw) ⟨u, h2⟩
            exact ⟨v, by rw [← hv]; rfl⟩
        refine ⟨?_, hii⟩
        intro hinf
        rcases occCons.mp hinf with hp | ht
        · exact occ_of_pref (hii p List.suffix_rfl hp)
        · rw [hgo]
          exact occCons.mpr (Or.inr (ih1 ht))

/-- `content.replace(q, r)` (with `preserveOkB p q`) keeps every
occurrence of `p`. -/
theorem replaceAll_preserve {p q : List Char} (h : preserveOkB p q = true)
    (r s : List Char) (hps : p <:+: s) : p <:+: replaceAll s q r := by
  obtain ⟨hp, hq, hpq, hqp, hsp, hsq⟩ := preserveOk_spec h
  unfold replaceAll
  have hqe : q.isEmpty = false := by
    cases q with
    | nil => exact absurd rfl hq
    | cons d q' => rfl
  rw [hqe]
  simp only [Bool.false_eq_true, if_false]
  exact (presGo hq hpq hqp hsp hsq s.length s le_rfl).1 hps

theorem rfPresAux {p q r : List Char} (hpq : ¬ p <:+: q) (hqp : ¬ q <:+: p)
    (hsp : ∀ y, y <:+ p → y ≠ [] → ¬ y <+: q)
    (hsq : ∀ y, y <:+ q → y ≠ [] → ¬ y <+: p) :
    ∀ s, ((p <:+: s → p <:+: replaceFirst s q r) ∧
      (∀ w, w <:+ p → w <+: s → w <+: replaceFirst s q r)) := by
  intro s
  induction s with
  | nil =>
    rw [replaceFirst]
    exact ⟨fun h => h, fun w _ h => h⟩
  | cons c t ih =>
    by_cases hm : prefB q (c :: t) = true
    · have hqpre : q <+: c :: t := (prefB_iff _ _).mp hm
      have hsplit : q ++ (c :: t).drop q.length = c :: t := pref_drop_eq hqpre
      have hgo : replaceFirst (c :: t) q r = r ++ (c :: t).drop q.length := by
        rw [replaceFirst]
        simp only [if_pos hm]
      have hii : ∀ w, w <:+ p → w <+: (c :: t) →
          w <+: replaceFirst (c :: t) q r := by
        intro w hw hws
        cases w with
        | nil => exact ⟨_, rfl⟩
        | cons e w' =>
          by_cases hlw : q.length ≤ (e :: w').length
          · exfalso
            have hqw : q <+: (e :: w') := pref_pref_le q (e :: w') (c :: t) hqpre hws hlw
            apply hqp
            obtain ⟨rest, hrest⟩ := hqw
            obtain ⟨a, ha⟩ := hw
            exact ⟨a, rest, by rw [← ha, ← hrest]; simp⟩
          · exfalso
            have hwq : (e :: w') <+: q :=
              pref_pref_le (e :: w') q (c :: t) hws hqpre (by omega)
            exact hsp (e :: w') hw (by simp) hwq
      refine ⟨?_, hii⟩
      intro hinf
      rw [hgo]
      rw [← hsplit] at hinf
      rcases occ_append_split hinf with hiq | hiu | ⟨x, y, hxy, hxne, _, hxq, hyu⟩
      · exact absurd hiq hpq
      · exact occ_append_right r hiu
      · exact absurd (⟨y, hxy⟩ : x <+: p) (hsq x hxq hxne)
    · obtain ⟨ih1, ih2⟩ := ih
      have hgo : replaceFirst (c :: t) q r = c :: replaceFirst t q r := by
        rw [replaceFirst]
        simp only [if_neg hm]
      have hii : ∀ w, w <:+ p → w <+: (c :: t) →
          w <+: replaceFirst (c :: t) q r := by
        intro w hw hws
        rw [hgo]
        cases w with
        | nil => exact ⟨_, rfl⟩
        | cons e w' =>
          obtain ⟨u, hu⟩ := hws
          injection hu with h1 h2
          subst h1
          obtain ⟨v, hv⟩ := ih2 w' (suff_trans ⟨[e], rfl⟩ hw) ⟨u, h2⟩
          exact ⟨v, by rw [← hv]; rfl⟩
      refine ⟨?_, hii⟩
      intro hinf
      rcases occCons.mp hinf with hp | ht
      · exact occ_of_pref (hii p List.suffix_rfl hp)
      · rw [hgo]
        exact occCons.mpr (Or.inr (ih1 ht))

/-- `content.replace(q, r, 1)` (with `preserveOkB p q`) keeps every
occurrence of `p`. -/
theorem replaceFirst_preserve {p q : List Char} (h : preserveOkB p q = true)
    (r s : List Char) (hps : p <:+: s) : p <:+: replaceFirst s q r := by
  obtain ⟨hp, hq, hpq, hqp, hsp, hsq⟩ := preserveOk_spec h
  exact (rfPresAux hpq hqp hsp hsq s).1 hps

/-- If the pattern does not occur, `content.replace(p, r, 1)` is the
identity (the soft-failure behaviour of the fetch interception). -/
theorem replaceFirst_noop {p r : List Char} :
    ∀ s, ¬ p <:+: s → replaceFirst s p r = s := by
  intro s
  induction s with
  | nil => intro _; rw [replaceFirst]
  | cons c t ih =>
    intro hps
    have hm : ¬ prefB p (c :: t) = true := by
      intro hx
      exact hps (occ_of_pref ((prefB_iff _ _).mp hx))
    rw [replaceFirst]
    simp only [if_neg hm]
    rw [ih (fun hx => hps (occCons.mpr (Or.inr hx)))]

/-! ## Render-session lemmas -/

theorem renderItems_append (eng : Engine) (n : Nat) :
    ∀ (a b : List (List Char)) (idx : Nat),
      renderItems eng n idx (a ++ b) =
        renderItems eng n idx a ++ renderItems eng n (idx + a.length) b := by
  intro a
  induction a with
  | nil => intro b idx; simp [renderItems]
  | cons s rest ih =>
    intro b idx
    simp only [List.cons_append, renderItems, List.append_eq]
    rw [ih b (idx + 1), List.append_assoc, List.length_cons]
    have h : idx + 1 + rest.length = idx + (rest.length + 1) := by omega
    rw [h]

theorem renderDeletes_append (eng : Engine) (n : Nat) :
    ∀ (a b : List (List Char)) (idx : Nat),
      renderDeletes eng n idx (a ++ b) =
        renderDeletes eng n idx a ++ renderDeletes eng n (idx + a.length) b := by
  intro a
  induction a with
  | nil => intro b idx; simp [renderDeletes]
  | cons s rest ih =>
    intro b idx
    simp only [List.cons_append, renderDeletes, List.append_eq]
    rw [ih b (idx + 1), List.append_assoc, List.length_cons]
    have h : idx + 1 + rest.length = idx + (rest.length + 1) := by omega
    rw [h]

theorem cardsOf_append (a b : List Item) :
    cardsOf (a ++ b) = cardsOf a ++ cardsOf b := by
  simp [cardsOf, List.filter_append]

/-- Every processed entry contributes exactly one card carrying its own
SMILES string, in input order (failure or not). -/
theorem renderItems_smiles (eng : Engine) (n : Nat) :
    ∀ (l : List (List Char)) (idx : Nat),
      (cardsOf (renderItems eng n idx l)).map smilesOfCard = l := by
  intro l
  induction l with
  | nil => intro idx; simp [renderItems, cardsOf]
  | cons s rest ih =>
    intro idx
    rw [renderItems, cardsOf_append, List.map_append, ih]
    rcases hm : eng.getMol s with _ | m
    · simp [renderEntry, hm, cardsOf, isArrowItem, smilesOfCard]
    · rcases hsvg : eng.getSvg m with _ | svg
      · simp [renderEntry, hm, hsvg, cardsOf, isArrowItem, smilesOfCard]
      · by_cases hidx : idx < n - 1
        · simp [renderEntry, hm, hsvg, cardsOf, isArrowItem, smilesOfCard, hidx]
        · simp [renderEntry, hm, hsvg, cardsOf, isArrowItem, smilesOfCard, hidx]

theorem countLt_eq (n : Nat) : ∀ (len idx : Nat),
    countLt n idx len = min len (n - 1 - idx) := by
  intro len
  induction len with
  | zero => intro idx; simp [countLt]
  | succ len ih =>
    intro idx
    rw [countLt, ih]
    by_cases h : idx < n - 1
    · simp only [if_pos h]
      omega
    · simp only [if_neg h]
      omega

/-- A run of fully valid entries renders as one depiction card per entry
(no failure markers) plus one arrow per non-final index. -/
theorem renderItems_valid (eng : Engine) (n : Nat) :
    ∀ (l : List (List Char)) (idx : Nat), (∀ x ∈ l, ValidEntry eng x) →
      (∀ it ∈ cardsOf (renderItems eng n idx l), isStepItem it = true) ∧
      (renderItems eng n idx l).countP isErrorItem = 0 ∧
      (renderItems eng n idx l).countP isArrowItem = countLt n idx l.length := by
  intro l
  induction l with
  | nil =>
    intro idx _
    simp [renderItems, cardsOf, countLt]
  | cons s rest ih =>
    intro idx hv
    obtain ⟨m, svg, hm, hsvg⟩ := hv s (by simp)
    obtain ⟨ih1, ih2, ih3⟩ := ih (idx + 1) (fun x hx => hv x (by simp [hx]))
    have hentry : (renderEntry eng n idx s).1 =
        Item.step idx s svg :: (if idx < n - 1 then [Item.arrow] else []) := by
      simp only [renderEntry, hm, hsvg]
    rw [renderItems, hentry]
    by_cases hidx : idx < n - 1
    · simp only [if_pos hidx]
      refine ⟨?_, ?_, ?_⟩
      · intro it hit
        rw [cardsOf_append] at hit
        rcases List.mem_append.mp hit with h1 | h2
        · simp [cardsOf, isArrowItem] at h1
          rw [h1]
          rfl
        · exact ih1 it h2
      · simp only [List.countP_append, ih2]
        rfl
      · simp only [List.countP_append, ih3, List.length_cons]
        rw [countLt]
        simp only [if_pos hidx]
        have : (List.countP isArrowItem [Item.step idx s svg, Item.arrow]) = 1 := rfl
        omega
    · simp only [if_neg hidx]
      refine ⟨?_, ?_, ?_⟩
      · intro it hit
        rw [cardsOf_append] at hit
        rcases List.mem_append.mp hit with h1 | h2
        · simp [cardsOf, isArrowItem] at h1
          rw [h1]
          rfl
        · exact ih1 it h2
      · simp only [List.countP_append, ih2]
        rfl
      · simp only [List.countP_append, ih3, List.length_cons]
        rw [countLt]
        simp only [if_neg hidx]
        have : (List.countP isArrowItem [Item.step idx s svg]) = 0 := rfl
        omega

/-! ## Claim theorems: render session -/

/-- C3: for every render request whose filtered input is a non-empty
sequence of N entries all parsed (and depicted) successfully by the
engine, the output consists of exactly N depiction items in input order,
exactly N−1 directional connectors, and no failure markers. -/
theorem C3_render_all_valid (eng : Engine) (raw : List Char)
    (hne : parseInput raw ≠ [])
    (hv : ∀ x ∈ parseInput raw, ValidEntry eng x) :
    (cardsOf (renderPathway (some eng) raw).container).length =
      (parseInput raw).length ∧
    (∀ it ∈ cardsOf (renderPathway (some eng) raw).container,
      isStepItem it = true) ∧
    (cardsOf (renderPathway (some eng) raw).container).map smilesOfCard =
      parseInput raw ∧
    (renderPathway (some eng) raw).container.countP isArrowItem =
      (parseInput raw).length - 1 ∧
    (renderPathway (some eng) raw).container.countP isErrorItem = 0 ∧
    (renderPathway (some eng) raw).feedback = [] := by
  have hemp : (parseInput raw).isEmpty = false := by
    cases h : parseInput raw with
    | nil => exact absurd h hne
    | cons a l => rfl
  have hcont : (renderPathway (some eng) raw).container =
      renderItems eng (parseInput raw).length 0 (parseInput raw) := by
    simp [renderPathway, hemp]
  have hfb : (renderPathway (some eng) raw).feedback = [] := by
    simp [renderPathway, hemp]
  obtain ⟨hstep, herr, harrow⟩ :=
    renderItems_valid eng (parseInput raw).length (parseInput raw) 0 hv
  have hsm := renderItems_smiles eng (parseInput raw).length (parseInput raw) 0
  have hN1 : 1 ≤ (parseInput raw).length := by
    cases h : parseInput raw with
    | nil => exact absurd h hne
    | cons a l => simp
  refine ⟨?_, ?_, ?_, ?_, ?_, hfb⟩
  · rw [hcont]
    have := congrArg List.length hsm
    simpa using this
  · rw [hcont]; exact hstep
  · rw [hcont]; exact hsm
  · rw [hcont, harrow, countLt_eq]
    omega
  · rw [hcont]; exact herr

/-- C3 witness: the spec example `"CCO\nCC(=O)O\nO=C(O)C(O)CO"` under a
concrete engine — 3 depiction cards, 2 connectors, no failure markers. -/
theorem C3_witness :
    (cardsOf (renderPathway (some demoEngine)
      "CCO\nCC(=O)O\nO=C(O)C(O)CO".toList).container).length = 3 ∧
    (renderPathway (some demoEngine)
      "CCO\nCC(=O)O\nO=C(O)C(O)CO".toList).container.countP isArrowItem = 2 ∧
    (renderPathway (some demoEngine)
      "CCO\nCC(=O)O\nO=C(O)C(O)CO".toList).container.countP isErrorItem = 0 := by
  have hv : ∀ x ∈ parseInput "CCO\nCC(=O)O\nO=C(O)C(O)CO".toList,
      ValidEntry demoEngine x := by
    have hne : ∀ x ∈ parseInput "CCO\nCC(=O)O\nO=C(O)C(O)CO".toList,
        ¬ x = "??".toList := by decide
    intro x hx
    refine ⟨x.length, "<svg/>".toList, ?_, rfl⟩
    show (if x = "??".toList then none else some x.length) = some x.length
    rw [if_neg (hne x hx)]
  have h := C3_render_all_valid demoEngine
    "CCO\nCC(=O)O\nO=C(O)C(O)CO".toList (by decide) hv
  have hlen : (parseInput "CCO\nCC(=O)O\nO=C(O)C(O)CO".toList).length = 3 := by
    decide
  refine ⟨?_, ?_, h.2.2.2.2.1⟩
  · rw [h.1, hlen]
  · rw [h.2.2.2.1, hlen]

/-- C6: when the input text has only empty or whitespace-only lines (the
filtered sequence is empty), the render pass clears the output, shows the
validation message, produces zero cards and zero connectors, performs
zero `get_mol` calls, and its result does not depend on the engine at
all (the engine promise is never awaited). -/
theorem C6_empty_input (rdkitReady : Option Engine) (raw : List Char)
    (h : parseInput raw = []) :
    renderPathway rdkitReady raw =
      ⟨emptyInputMsg, [], [], 0⟩ ∧
    (renderPathway rdkitReady raw).container.countP (fun it => !isArrowItem it) = 0 ∧
    (renderPathway rdkitReady raw).container.countP isArrowItem = 0 ∧
    (renderPathway rdkitReady raw).molCalls = 0 ∧
    (∀ other : Option Engine,
      renderPathway rdkitReady raw = renderPathway other raw) := by
  have he : (parseInput raw).isEmpty = true := by rw [h]; rfl
  have hmain : renderPathway rdkitReady raw = ⟨emptyInputMsg, [], [], 0⟩ := by
    simp [renderPathway, he]
  refine ⟨hmain, ?_, ?_, ?_, ?_⟩
  · rw [hmain]; rfl
  · rw [hmain]; rfl
  · rw [hmain]
  · intro other
    rw [hmain]
    simp [renderPathway, he]

/-- C6 witness: whitespace-only input, engine promise rejected — the
validation message is shown, nothing is rendered, engine untouched. -/
theorem C6_witness :
    parseInput "  \n\n \t ".toList = [] ∧
    renderPathway none "  \n\n \t ".toList =
      ⟨emptyInputMsg, [], [], 0⟩ ∧
    renderPathway none "  \n\n \t ".toList =
      renderPathway (some demoEngine) "  \n\n \t ".toList := by
  refine ⟨by decide, ?_, ?_⟩
  · exact (C6_empty_input none "  \n\n \t ".toList (by decide)).1
  · exact (C6_empty_input none "  \n\n \t ".toList (by decide)).2.2.2.2
      (some demoEngine)

/-- C10: per processed entry, the molecule handle of a successful
`get_mol` is released via `delete` iff the subsequent `get_svg` returns
normally; when `get_svg` throws after a successful parse the handle is
not released and the entry records the same failure marker as a parse
failure. -/
theorem C10_delete_iff (eng : Engine) (n idx : Nat) (s : List Char) :
    (eng.getMol s = none →
      renderEntry eng n idx s = ([Item.errorCard s], [])) ∧
    (∀ m, eng.getMol s = some m →
      (((eng.getSvg m).isSome = true) ↔ (renderEntry eng n idx s).2 = [m]) ∧
      (eng.getSvg m = none →
        (renderEntry eng n idx s).2 = [] ∧
        (renderEntry eng n idx s).1 = [Item.errorCard s])) := by
  constructor
  · intro hm
    simp [renderEntry, hm]
  · intro m hm
    rcases hx : eng.getSvg m with _ | svg
    · refine ⟨?_, ?_⟩
      · constructor
        · intro hs
          simp at hs
        · intro hs
          exfalso
          have hnil : (renderEntry eng n idx s).2 = [] := by
            simp [renderEntry, hm, hx]
          rw [hnil] at hs
          simp at hs
      · intro _
        refine ⟨?_, ?_⟩ <;> simp [renderEntry, hm, hx]
    · refine ⟨?_, ?_⟩
      · constructor
        · intro _
          simp [renderEntry, hm, hx]
        · intro _
          rfl
      · intro hc
        exact absurd hc (by simp)

/-- C10 witness: an engine whose `get_svg` always throws — after a
successful parse the handle is not deleted and the entry is recorded
with the same failure marker a parse failure produces. -/
theorem C10_witness :
    (renderEntry svgFailEngine 1 0 "CCO".toList).2 = [] ∧
    (renderEntry svgFailEngine 1 0 "CCO".toList).1 =
      [Item.errorCard "CCO".toList] := by
  exact ((C10_delete_iff svgFailEngine 1 0 "CCO".toList).2 3 rfl).2 rfl

/-- C1 counterexample: input `"??\nCCO"` — N = 2 entries, the invalid
one at position k = 0.  The output has 2 items (failure marker then
depiction) but **zero** connectors, not N−1 = 1: the arrow append sits
inside the `try` block, so no connector follows a failed entry. -/
theorem C1_counterexample :
    (cardsOf (renderPathway (some demoEngine) "??\nCCO".toList).container).length
      = 2 ∧
    isErrorItem ((cardsOf (renderPathway (some demoEngine)
      "??\nCCO".toList).container).getD 0 Item.arrow) = true ∧
    isStepItem ((cardsOf (renderPathway (some demoEngine)
      "??\nCCO".toList).container).getD 1 Item.arrow) = true ∧
    (renderPathway (some demoEngine) "??\nCCO".toList).container.countP
      isArrowItem = 0 ∧
    ¬ (renderPathway (some demoEngine) "??\nCCO".toList).container.countP
      isArrowItem = 2 - 1 := by
  decide

/-- C1 (amended): with exactly one invalid entry at 0-indexed position
`k` (= `l1.length`) among `N` entries, the output has `N` items, the
item at position `k` is a failure marker, all others are depictions —
but the connector count is `N−1` only when the invalid entry is last
(`k = N−1`); otherwise it is `N−2`, the connector after the failure
marker being omitted. -/
theorem C1_one_invalid (eng : Engine) (raw : List Char)
    (l1 l2 : List (List Char)) (s : List Char)
    (hsplit : parseInput raw = l1 ++ s :: l2)
    (hbad : eng.getMol s = none)
    (hv1 : ∀ x ∈ l1, ValidEntry eng x)
    (hv2 : ∀ x ∈ l2, ValidEntry eng x) :
    (cardsOf (renderPathway (some eng) raw).container).length =
      l1.length + 1 + l2.length ∧
    (cardsOf (renderPathway (some eng) raw).container).map smilesOfCard =
      l1 ++ s :: l2 ∧
    (∃ A B : List Item,
      cardsOf (renderPathway (some eng) raw).container =
        A ++ Item.errorCard s :: B ∧
      A.length = l1.length ∧
      (∀ it ∈ A, isStepItem it = true) ∧
      (∀ it ∈ B, isStepItem it = true)) ∧
    (renderPathway (some eng) raw).container.countP isErrorItem = 1 ∧
    (renderPathway (some eng) raw).container.countP isArrowItem =
      (if l1.length = (l1.length + 1 + l2.length) - 1
       then (l1.length + 1 + l2.length) - 1
       else (l1.length + 1 + l2.length) - 2) := by
  have hemp : (parseInput raw).isEmpty = false := by
    rw [hsplit]
    cases l1 <;> rfl
  have hN : (parseInput raw).length = l1.length + 1 + l2.length := by
    rw [hsplit]
    simp
    omega
  have hcont : (renderPathway (some eng) raw).container =
      renderItems eng (parseInput raw).length 0 (parseInput raw) := by
    simp [renderPathway, hemp]
  set N := (parseInput raw).length with hNdef
  have hitems : renderItems eng N 0 (parseInput raw) =
      renderItems eng N 0 l1 ++
        ([Item.errorCard s] ++ renderItems eng N (l1.length + 1) l2) := by
    rw [hsplit, renderItems_append]
    simp only [Nat.zero_add]
    rw [renderItems]
    have hent : (renderEntry eng N l1.length s).1 = [Item.errorCard s] := by
      simp [renderEntry, hbad]
    rw [hent]
  obtain ⟨hstep1, herr1, harr1⟩ := renderItems_valid eng N l1 0 hv1
  obtain ⟨hstep2, herr2, harr2⟩ := renderItems_valid eng N l2 (l1.length + 1) hv2
  have hsm1 := renderItems_smiles eng N l1 0
  have hsm2 := renderItems_smiles eng N l2 (l1.length + 1)
  have hcards : cardsOf (renderItems eng N 0 (parseInput raw)) =
      cardsOf (renderItems eng N 0 l1) ++
        Item.errorCard s :: cardsOf (renderItems eng N (l1.length + 1) l2) := by
    rw [hitems, cardsOf_append, cardsOf_append]
    rfl
  have hlen1 : (cardsOf (renderItems eng N 0 l1)).length = l1.length := by
    have := congrArg List.length hsm1
    simpa using this
  refine ⟨?_, ?_, ?_, ?_, ?_⟩
  · rw [hcont, hcards]
    have h2 := congrArg List.length hsm2
    simp only [List.length_map] at h2
    simp [hlen1, h2]
    omega
  · rw [hcont, hcards]
    simp only [List.map_append, List.map_cons, hsm1, hsm2, smilesOfCard]
  · exact ⟨cardsOf (renderItems eng N 0 l1),
      cardsOf (renderItems eng N (l1.length + 1) l2),
      by rw [hcont, hcards], hlen1, hstep1, hstep2⟩
  · rw [hcont, hitems]
    simp only [List.countP_append, herr1, herr2]
    rfl
  · rw [hcont, hitems]
    simp only [List.countP_append, harr1, harr2, countLt_eq]
    have hmid : List.countP isArrowItem [Item.errorCard s] = 0 := rfl
    rw [hmid]
    have hNval : N = l1.length + 1 + l2.length := hN
    by_cases hk : l1.length = (l1.length + 1 + l2.length) - 1
    · rw [if_pos hk]
      omega
    · rw [if_neg hk]
      omega

/-- C1 witness (amended claim): the spec example `"CCO\n??\nCCN"` —
3 items, failure marker at index 1, depictions at 0 and 2, and
(as amended) 1 connector rather than 2. -/
theorem C1_witness :
    parseInput "CCO\n??\nCCN".toList =
      ["CCO".toList, "??".toList, "CCN".toList] ∧
    demoEngine.getMol "??".toList = none ∧
    (cardsOf (renderPathway (some demoEngine) "CCO\n??\nCCN".toList).container).length = 3 ∧
    (renderPathway (some demoEngine) "CCO\n??\nCCN".toList).container.countP
      isErrorItem = 1 ∧
    (renderPathway (some demoEngine) "CCO\n??\nCCN".toList).container.countP
      isArrowItem = 1 := by
  have hv1 : ∀ x ∈ ["CCO".toList], ValidEntry demoEngine x := by
    intro x hx
    simp only [List.mem_singleton] at hx
    subst hx
    exact ⟨3, "<svg/>".toList, by decide, rfl⟩
  have hv2 : ∀ x ∈ ["CCN".toList], ValidEntry demoEngine x := by
    intro x hx
    simp only [List.mem_singleton] at hx
    subst hx
    exact ⟨3, "<svg/>".toList, by decide, rfl⟩
  have h := C1_one_invalid demoEngine "CCO\n??\nCCN".toList
    ["CCO".toList] ["CCN".toList] "??".toList (by decide) (by decide) hv1 hv2
  refine ⟨by decide, by decide, ?_, h.2.2.2.1, ?_⟩
  · have := h.1
    simpa using this
  · have := h.2.2.2.2
    simpa using this

/-! ## Claim theorems: document rewriter and asset cache -/

/-- C4: the fetch interception runs iff the binary payload is present;
it is a plain leftmost textual replacement of the exact `fetch_old` body,
so whenever that body does not occur character-for-character the step
leaves the document unchanged (and, being a total function, never
raises). -/
theorem C4_fetch_interception (content : List Char)
    (assets : List (List Char × List Char)) :
    (bundleGet assets rdkitWasmName = none →
      (inlineRdkitAssets content assets).1 =
        applyJsStep content (bundleGet assets rdkitJsName)) ∧
    (∀ u, bundleGet assets rdkitWasmName = some u →
      (inlineRdkitAssets content assets).1 =
        applyFetchStep (applyWasmSubs
          (applyJsStep content (bundleGet assets rdkitJsName)) u)) ∧
    (∀ s, occursB fetchOld s = false → applyFetchStep s = s) := by
  refine ⟨?_, ?_, ?_⟩
  · intro h
    simp [inlineRdkitAssets, applyWasmStep, h]
  · intro u h
    simp [inlineRdkitAssets, applyWasmStep, h]
  · intro s hs
    apply replaceFirst_noop
    intro hinf
    rw [← occursB_iff, hs] at hinf
    exact absurd hinf (by simp)

/-- C4 witness: with the binary payload absent the fetch step is skipped;
on a template without the exact body the step is the identity. -/
theorem C4_witness :
    (inlineRdkitAssets "hello".toList [(rdkitJsName, "X".toList)]).1 =
      applyJsStep "hello".toList
        (bundleGet [(rdkitJsName, "X".toList)] rdkitJsName) ∧
    applyFetchStep "async function fetchWasm(url) drifted".toList =
      "async function fetchWasm(url) drifted".toList := by
  constructor
  · exact (C4_fetch_interception "hello".toList
      [(rdkitJsName, "X".toList)]).1 (by decide)
  · exact (C4_fetch_interception [] []).2.2
      "async function fetchWasm(url) drifted".toList (by decide)

/-- C8: the cached bundle accessor is idempotent — a second call returns
the identical bundle and performs no further backing-store reads (the
whole cache state is unchanged). -/
theorem C8_bundle_memoized (store : Store) (st0 : CacheState) :
    (preloadRdkitAssets store (preloadRdkitAssets store st0).2).1 =
      (preloadRdkitAssets store st0).1 ∧
    (preloadRdkitAssets store (preloadRdkitAssets store st0).2).2.readCount =
      (preloadRdkitAssets store st0).2.readCount ∧
    (preloadRdkitAssets store (preloadRdkitAssets store st0).2).2 =
      (preloadRdkitAssets store st0).2 := by
  cases h : st0.bundleCache with
  | none => simp [preloadRdkitAssets, h]
  | some b => simp [preloadRdkitAssets, h]

/-- C9: with the external template missing, the loader returns the
inline document iff both payloads are present — but the code reaches the
f-string only to raise `NameError` (single-braced `${index + 1}` /
`${smiles}` are Python replacement fields of undefined names), so in the
both-present case it raises instead of returning the document; with
either payload absent it returns nothing and the page shows the asset
error box, as the claim says. -/
theorem C9_inline_loader (assets : List (List Char × List Char)) :
    ((bundleGet assets rdkitJsName).isSome = true →
      (bundleGet assets rdkitWasmName).isSome = true →
      loadHtml none assets = Except.error nameErrorIndexMsg ∧
      appMain (loadHtml none assets) = AppView.raised nameErrorIndexMsg) ∧
    ((bundleGet assets rdkitJsName).isSome = false ∨
        (bundleGet assets rdkitWasmName).isSome = false →
      loadHtml none assets = Except.ok none ∧
      appMain (loadHtml none assets) = AppView.errorBox rdkitAssetErrorMsg) := by
  constructor
  · intro hjs hwasm
    rcases hj : bundleGet assets rdkitJsName with _ | ju
    · rw [hj] at hjs; simp at hjs
    · rcases hw : bundleGet assets rdkitWasmName with _ | wu
      · rw [hw] at hwasm; simp at hwasm
      · constructor
        · simp [loadHtml, buildInlineApp, hj, hw]
        · simp [loadHtml, buildInlineApp, appMain, hj, hw]
  · intro habs
    have hok : loadHtml none assets = Except.ok none := by
      rcases hj : bundleGet assets rdkitJsName with _ | ju
      · simp [loadHtml, buildInlineApp, hj]
      · rcases hw : bundleGet assets rdkitWasmName with _ | wu
        · simp [loadHtml, buildInlineApp, hj, hw]
        · rw [hj] at habs; rw [hw] at habs; simp at habs
    exact ⟨hok, by rw [hok]; rfl⟩

/-- C9 witness: both payloads present ⇒ the loader raises the
`NameError`; empty bundle ⇒ `None` and the asset error box. -/
theorem C9_witness :
    loadHtml none [(rdkitJsName, "x".toList), (rdkitWasmName, "y".toList)] =
      Except.error nameErrorIndexMsg ∧
    appMain (loadHtml none []) = AppView.errorBox rdkitAssetErrorMsg := by
  constructor
  · exact ((C9_inline_loader
      [(rdkitJsName, "x".toList), (rdkitWasmName, "y".toList)]).1
      (by decide) (by decide)).1
  · exact ((C9_inline_loader []).2 (Or.inl (by decide))).2

/-! ## Claim theorems: bootstrap excision (C5) -/

theorem stripLit_suffix {lit s rem : List Char} (h : stripLit lit s = some rem) :
    rem <:+ s := by
  unfold stripLit at h
  by_cases hp : prefB lit s = true
  · rw [if_pos hp] at h
    injection h with h
    rw [← h]
    exact List.drop_suffix _ _
  · rw [if_neg hp] at h
    cases h

theorem dropWs_suffix (s : List Char) : dropWs s <:+ s :=
  List.dropWhile_suffix _

theorem bootstrapTail_suffix {s rem : List Char}
    (h : bootstrapTail s = some rem) : rem <:+ s := by
  unfold bootstrapTail at h
  simp only [Option.bind_eq_some, Option.map_eq_some'] at h
  obtain ⟨s1, h1, s2, h2, s3, h3, s4, h4, s5, h5, hrem⟩ := h
  have k1 : s1 <:+ s := stripLit_suffix h1
  have k2 : s2 <:+ s1 := suff_trans (stripLit_suffix h2) (dropWs_suffix s1)
  have k3 : s3 <:+ s2 := suff_trans (stripLit_suffix h3) (dropWs_suffix s2)
  have k4 : s4 <:+ s3 := suff_trans (stripLit_suffix h4) (dropWs_suffix s3)
  have k5 : s5 <:+ s4 := suff_trans (stripLit_suffix h5) (dropWs_suffix s4)
  have k6 : rem <:+ s5 := by rw [← hrem]; exact dropWs_suffix s5
  exact suff_trans k6 (suff_trans k5 (suff_trans k4
    (suff_trans k3 (suff_trans k2 k1))))

theorem bootstrapLazy_suffix : ∀ {s rem : List Char},
    bootstrapLazy s = some rem → rem <:+ s := by
  intro s
  induction s with
  | nil =>
    intro rem h
    rw [bootstrapLazy] at h
    exact bootstrapTail_suffix h
  | cons c t ih =>
    intro rem h
    rw [bootstrapLazy] at h
    rcases ht : bootstrapTail (c :: t) with _ | r
    · rw [ht] at h
      exact suff_trans (ih h) ⟨[c], rfl⟩
    · rw [ht] at h
      injection h with h
      rw [← h]
      exact bootstrapTail_suffix ht

theorem bootstrapMatchAt_suffix {s rem : List Char}
    (h : bootstrapMatchAt s = some rem) : rem <:+ s := by
  unfold bootstrapMatchAt at h
  simp only [Option.bind_eq_some] at h
  obtain ⟨s1, h1, s2, h2, s3, h3, hlazy⟩ := h
  have k1 : s1 <:+ s := stripLit_suffix h1
  have k2 : s2 <:+ s1 := suff_trans (stripLit_suffix h2) (dropWs_suffix s1)
  have k3 : s3 <:+ s2 := suff_trans (stripLit_suffix h3) (dropWs_suffix s2)
  exact suff_trans (bootstrapLazy_suffix hlazy)
    (suff_trans k3 (suff_trans k2 k1))

theorem searchBootstrap_none : ∀ s : List Char,
    (∀ i, i < s.length → bootstrapMatchAt (s.drop i) = none) →
    searchBootstrap s = none := by
  intro s
  induction s with
  | nil => intro _; rfl
  | cons c t ih =>
    intro h
    have h0 : bootstrapMatchAt (c :: t) = none := by
      have := h 0 (by simp)
      simpa using this
    rw [searchBootstrap, h0]
    rw [ih (fun i hi => by
      have := h (i + 1) (by simpa using hi)
      simpa using this)]
    rfl

theorem searchBootstrap_some : ∀ (s : List Char) (i : Nat) (rem : List Char),
    searchBootstrap s = some (i, rem) →
    bootstrapMatchAt (s.drop i) = some rem := by
  intro s
  induction s with
  | nil =>
    intro i rem h
    cases h
  | cons c t ih =>
    intro i rem h
    rw [searchBootstrap] at h
    rcases hm : bootstrapMatchAt (c :: t) with _ | r
    · rw [hm] at h
      simp only [Option.map_eq_some'] at h
      obtain ⟨⟨j, r2⟩, hs, hpair⟩ := h
      injection hpair with hji hrem
      have := ih j r2 hs
      rw [← hji, ← hrem]
      simpa using this
    · rw [hm] at h
      injection h with h
      injection h with hi hrem
      rw [← hi, ← hrem]
      simpa using hm

/-- C5: the bootstrap excision removes at most one occurrence of the
fixed self-invoking bootstrap block — either the template is returned
textually unchanged, or exactly one contiguous segment matching the
block pattern is cut out; in particular a template in which the pattern
matches at no position is returned unchanged. -/
theorem C5_bootstrap_excision (content : List Char) :
    ((∀ i, i < content.length → bootstrapMatchAt (content.drop i) = none) →
      stripInlineRdkitBootstrap content = content) ∧
    (stripInlineRdkitBootstrap content = content ∨
      ∃ i rem, bootstrapMatchAt (content.drop i) = some rem ∧
        rem <:+ content.drop i ∧
        stripInlineRdkitBootstrap content = content.take i ++ rem) := by
  constructor
  · intro h
    unfold stripInlineRdkitBootstrap
    rw [searchBootstrap_none content h]
  · rcases hs : searchBootstrap content with _ | pr
    · left
      unfold stripInlineRdkitBootstrap
      rw [hs]
    · right
      obtain ⟨i, rem⟩ := pr
      have hm := searchBootstrap_some content i rem hs
      exact ⟨i, rem, hm, bootstrapMatchAt_suffix hm, by
        unfold stripInlineRdkitBootstrap
        rw [hs]⟩

/-- C5 witness: a template with no bootstrap block is returned
unchanged. -/
theorem C5_witness :
    stripInlineRdkitBootstrap "<p>hello</p>".toList = "<p>hello</p>".toList := by
  exact (C5_bootstrap_excision "<p>hello</p>".toList).1 (by decide)

/-- C7: the substitutions are atomic per asset — when an asset's payload
is absent from the bundle none of its substitutions run (the rewrite
equals the other asset's step alone) and every original filename
reference of that asset still occurs in the output, whatever the other
asset's substitutions did (the patterns of distinct assets can never
overlap, so replacing one preserves occurrences of the other). -/
theorem C7_atomic_per_asset (content : List Char)
    (assets : List (List Char × List Char)) :
    (bundleGet assets rdkitJsName = none →
      (inlineRdkitAssets content assets).1 =
        applyWasmStep content (bundleGet assets rdkitWasmName) ∧
      (srcPat <:+: content →
        srcPat <:+: (inlineRdkitAssets content assets).1) ∧
      (constJsPat <:+: content →
        constJsPat <:+: (inlineRdkitAssets content assets).1)) ∧
    (bundleGet assets rdkitWasmName = none →
      (inlineRdkitAssets content assets).1 =
        applyJsStep content (bundleGet assets rdkitJsName) ∧
      (hrefPat <:+: content →
        hrefPat <:+: (inlineRdkitAssets content assets).1) ∧
      (constWasmPat <:+: content →
        constWasmPat <:+: (inlineRdkitAssets content assets).1) ∧
      (fetchOld <:+: content →
        fetchOld <:+: (inlineRdkitAssets content assets).1)) := by
  constructor
  · intro hjs
    have hinl : (inlineRdkitAssets content assets).1 =
        applyWasmStep content (bundleGet assets rdkitWasmName) := by
      simp [inlineRdkitAssets, applyJsStep, hjs]
    refine ⟨hinl, ?_, ?_⟩
    · intro hocc
      rw [hinl]
      rcases hw : bundleGet assets rdkitWasmName with _ | u
      · exact hocc
      · show srcPat <:+: applyFetchStep (applyWasmSubs content u)
        unfold applyFetchStep applyWasmSubs
        apply replaceFirst_preserve (by decide : preserveOkB srcPat fetchOld = true)
        apply replaceAll_preserve (by decide : preserveOkB srcPat constWasmPat = true)
        apply replaceAll_preserve (by decide : preserveOkB srcPat hrefPat = true)
        exact hocc
    · intro hocc
      rw [hinl]
      rcases hw : bundleGet assets rdkitWasmName with _ | u
      · exact hocc
      · show constJsPat <:+: applyFetchStep (applyWasmSubs content u)
        unfold applyFetchStep applyWasmSubs
        apply replaceFirst_preserve (by decide : preserveOkB constJsPat fetchOld = true)
        apply replaceAll_preserve (by decide : preserveOkB constJsPat constWasmPat = true)
        apply replaceAll_preserve (by decide : preserveOkB constJsPat hrefPat = true)
        exact hocc
  · intro hwasm
    have hinl : (inlineRdkitAssets content assets).1 =
        applyJsStep content (bundleGet assets rdkitJsName) := by
      simp [inlineRdkitAssets, applyWasmStep, hwasm]
    refine ⟨hinl, ?_, ?_, ?_⟩
    · intro hocc
      rw [hinl]
      rcases hj : bundleGet assets rdkitJsName with _ | u
      · exact hocc
      · show hrefPat <:+: replaceAll (replaceAll content srcPat (srcRepl u))
          constJsPat (constJsRepl u)
        apply replaceAll_preserve (by decide : preserveOkB hrefPat constJsPat = true)
        apply replaceAll_preserve (by decide : preserveOkB hrefPat srcPat = true)
        exact hocc
    · intro hocc
      rw [hinl]
      rcases hj : bundleGet assets rdkitJsName with _ | u
      · exact hocc
      · show constWasmPat <:+: replaceAll (replaceAll content srcPat (srcRepl u))
          constJsPat (constJsRepl u)
        apply replaceAll_preserve (by decide : preserveOkB constWasmPat constJsPat = true)
        apply replaceAll_preserve (by decide : preserveOkB constWasmPat srcPat = true)
        exact hocc
    · intro hocc
      rw [hinl]
      rcases hj : bundleGet assets rdkitJsName with _ | u
      · exact hocc
      · show fetchOld <:+: replaceAll (replaceAll content srcPat (srcRepl u))
          constJsPat (constJsRepl u)
        apply replaceAll_preserve (by decide : preserveOkB fetchOld constJsPat = true)
        apply replaceAll_preserve (by decide : preserveOkB fetchOld srcPat = true)
        exact hocc

/-- C7 witness: with the script payload absent but the binary payload
present (all wasm substitutions applied), the `src="rdkit_minimal.js"`
reference survives intact. -/
theorem C7_witness :
    bundleGet [(rdkitWasmName, "data:application/wasm;base64,QQ==".toList)]
      rdkitJsName = none ∧
    srcPat <:+: (inlineRdkitAssets
      "<script src=\"rdkit_minimal.js\"></script>".toList
      [(rdkitWasmName, "data:application/wasm;base64,QQ==".toList)]).1 := by
  refine ⟨by decide, ?_⟩
  exact ((C7_atomic_per_asset
      "<script src=\"rdkit_minimal.js\"></script>".toList
      [(rdkitWasmName, "data:application/wasm;base64,QQ==".toList)]).1
      (by decide)).2.1
    ((occursB_iff "<script src=\"rdkit_minimal.js\"></script>".toList
      srcPat).mp (by decide))

/-! ## Claim theorems: reference substitution (C2) -/

/-- C2 counterexample: a template using the script's logical filename as
a `link` `href` attribute value, with **both** payloads present — the
rewrite touches nothing (it only substitutes `src="rdkit_minimal.js"`
and `href="RDKit_minimal.wasm"`), so the original logical filename still
occurs as an attribute value in the output. -/
theorem C2_counterexample :
    (inlineRdkitAssets "<link href=\"rdkit_minimal.js\" />".toList
      [(rdkitJsName, "data:application/javascript;base64,QUJD".toList),
       (rdkitWasmName, "data:application/wasm;base64,QUJD".toList)]).1 =
      "<link href=\"rdkit_minimal.js\" />".toList ∧
    occursB ("href=\"".toList ++ rdkitJsName ++ "\"".toList)
      ((inlineRdkitAssets "<link href=\"rdkit_minimal.js\" />".toList
        [(rdkitJsName, "data:application/javascript;base64,QUJD".toList),
         (rdkitWasmName, "data:application/wasm;base64,QUJD".toList)]).1) =
      true := by
  decide

/-- C2 (amended): with both payloads present, the rewrite output
contains no occurrence of `src="rdkit_minimal.js"` and none of
`href="RDKit_minimal.wasm"` — the two attribute-value forms the code
substitutes — provided the replacement strings built from the payload
URIs neither contain nor boundary-overlap those patterns (which holds
for genuine `data:` base64 URIs, as the witness checks). -/
theorem C2_amended (content jsUri wasmUri : List Char)
    (h1 : killOkB srcPat (srcRepl jsUri) = true)
    (h2 : createSafeB srcPat (constJsRepl jsUri) = true)
    (h3 : createSafeB srcPat (hrefRepl wasmUri) = true)
    (h4 : createSafeB srcPat (constWasmRepl wasmUri) = true)
    (h5 : createSafeB srcPat fetchNew = true)
    (h6 : killOkB hrefPat (hrefRepl wasmUri) = true)
    (h7 : createSafeB hrefPat (constWasmRepl wasmUri) = true)
    (h8 : createSafeB hrefPat fetchNew = true) :
    ¬ srcPat <:+: (inlineRdkitAssets content
        [(rdkitJsName, jsUri), (rdkitWasmName, wasmUri)]).1 ∧
    ¬ hrefPat <:+: (inlineRdkitAssets content
        [(rdkitJsName, jsUri), (rdkitWasmName, wasmUri)]).1 := by
  have hbjs : bundleGet [(rdkitJsName, jsUri), (rdkitWasmName, wasmUri)]
      rdkitJsName = some jsUri := by rfl
  have hbw : bundleGet [(rdkitJsName, jsUri), (rdkitWasmName, wasmUri)]
      rdkitWasmName = some wasmUri := by rfl
  have hshape : (inlineRdkitAssets content
      [(rdkitJsName, jsUri), (rdkitWasmName, wasmUri)]).1 =
      replaceFirst (replaceAll (replaceAll (replaceAll
        (replaceAll content srcPat (srcRepl jsUri))
        constJsPat (constJsRepl jsUri))
        hrefPat (hrefRepl wasmUri))
        constWasmPat (constWasmRepl wasmUri)) fetchOld fetchNew := by
    rw [inlineRdkitAssets, hbjs, hbw]
    rfl
  constructor
  · rw [hshape]
    apply replaceFirst_noCreate h5
    apply replaceAll_noCreate h4
    apply replaceAll_noCreate h3
    apply replaceAll_noCreate h2
    exact replaceAll_kill h1 content
  · rw [hshape]
    apply replaceFirst_noCreate h8
    apply replaceAll_noCreate h7
    exact replaceAll_kill h6 _

/-- C2 witness (amended claim): a concrete template holding both
targeted attribute references and a realistic pair of data URIs — the
rewritten output is free of both patterns; all eight side conditions
hold for these URIs by computation. -/
theorem C2_witness :
    ¬ srcPat <:+: (inlineRdkitAssets
      "<script src=\"rdkit_minimal.js\"></script><link href=\"RDKit_minimal.wasm\" />".toList
      [(rdkitJsName, "data:application/javascript;base64,QUJD".toList),
       (rdkitWasmName, "data:application/wasm;base64,QUJD".toList)]).1 ∧
    ¬ hrefPat <:+: (inlineRdkitAssets
      "<script src=\"rdkit_minimal.js\"></script><link href=\"RDKit_minimal.wasm\" />".toList
      [(rdkitJsName, "data:application/javascript;base64,QUJD".toList),
       (rdkitWasmName, "data:application/wasm;base64,QUJD".toList)]).1 :=
  C2_amended
    "<script src=\"rdkit_minimal.js\"></script><link href=\"RDKit_minimal.wasm\" />".toList
    "data:application/javascript;base64,QUJD".toList
    "data:application/wasm;base64,QUJD".toList
    (by decide) (by decide) (by decide) (by decide)
    (by decide) (by decide) (by decide) (by decide)
